import Mathlib

/-!
# Senflare-DNS-IP — verification of the IP quality pipeline

A shallow embedding of the pure decision logic of the repository's IP quality
pipeline (src/src/ipTester.js, src/config/config.js, src/src/geoResolver.js).

Network effects are made explicit: a TCP connection attempt is modelled by a
function `conn : ℕ → ℤ → Option ℕ` giving, for an attempt index and a port,
either `some delay` (the connection succeeded after `delay` milliseconds) or
`none` (timeout or refusal).  HTTP download outcomes and geolocation API
responses are modelled similarly.  JS numbers are modelled as `ℕ`/`ℤ`/`ℚ`
(delays produced by `Date.now()` differences are naturals; averages,
variances and scores are rationals), and `Date.now()` is passed explicitly.
-/

namespace SenflareDnsIp

/-! ## JS number and string helpers -/

/-- JS `Math.round(x * 100) / 100` — round to two decimal places.
`Math.round` rounds half toward positive infinity, i.e. `⌊x + 1/2⌋`. -/
def round2 (q : ℚ) : ℚ := (⌊q * 100 + 1 / 2⌋ : ℚ) / 100

/-- JS `parseInt(s, 10)` on a character list: skip leading whitespace,
optional sign, then the longest prefix of decimal digits; `none` models
`NaN` (no digits). -/
def jsParseIntDec (s : List Char) : Option ℤ :=
  let cs := s.dropWhile (fun c => c.isWhitespace)
  let signAndRest : ℤ × List Char :=
    match cs with
    | '-' :: rest => (-1, rest)
    | '+' :: rest => (1, rest)
    | _ => (1, cs)
  let ds := signAndRest.2.takeWhile (fun c => c.isDigit)
  if ds.isEmpty then none
  else some (signAndRest.1 * ((ds.foldl (fun acc c => acc * 10 + (c.toNat - 48)) 0 : ℕ) : ℤ))

/-- JS `str.split('.')` for the single-character separator `'.'`:
`"".split('.') = [""]`, `"a..b".split('.') = ["a", "", "b"]`. -/
def splitOnDot : List Char → List (List Char)
  | [] => [[]]
  | c :: rest =>
    let r := splitOnDot rest
    if c = '.' then [] :: r else (c :: r.headI) :: r.tail

/-! ## src/src/ipTester.js -/

/-- `isValidIp(ip)`: split on `'.'`, exactly four parts, every part parses
(`parseInt(part, 10)`) to an integer in `[0, 255]`. -/
def isValidIp (ip : String) : Bool :=
  let parts := splitOnDot ip.toList
  decide (parts.length = 4) &&
    parts.all (fun part =>
      match jsParseIntDec part with
      | none => false
      | some n => decide (0 ≤ n) && decide (n ≤ 255))

/-- The port guard `typeof port === 'number' && !(port < 1 || port > 65535)`
inside the port loops (ports are modelled as integers). -/
def validPort (p : ℤ) : Bool := decide (1 ≤ p) && decide (p ≤ 65535)

/-- `minDelay = Math.min(minDelay, delay)` where `none` plays the role of the
initial `Infinity`. -/
def optMin (m : Option ℕ) (d : ℕ) : Option ℕ :=
  match m with
  | none => some d
  | some v => some (min v d)

/-- The inner port loop of one ping attempt in `testIpAvailability`:
walk the configured ports, skipping invalid ones and failed connections,
accumulating `minDelay`; on the first delay `< 200` push that delay, bump
`successCount` and `break`.  Returns (delays pushed by the break branch,
`successCount` increment, final `minDelay` accumulator). -/
def portLoop (conn : ℤ → Option ℕ) : List ℤ → Option ℕ → List ℕ × ℕ × Option ℕ
  | [], m => ([], 0, m)
  | p :: rest, m =>
    if validPort p then
      match conn p with
      | none => portLoop conn rest m
      | some d =>
        let m' := optMin m d
        if d < 200 then ([d], 1, m')
        else portLoop conn rest m'
    else portLoop conn rest m

/-- One iteration of the outer ping loop of `testIpAvailability`: run the port
loop, then push the attempt's accumulated `minDelay`, or the sentinel `999`
when no port connected (`minDelay === Infinity`).  Returns the delays pushed
onto `allDelays` by this attempt and the `successCount` increment. -/
def oneAttempt (conn : ℤ → Option ℕ) (ports : List ℤ) : List ℕ × ℕ :=
  let r := portLoop conn ports none
  match r.2.2 with
  | none => (r.1 ++ [999], r.2.1)
  | some v => (r.1 ++ [v], r.2.1)

/-- The outer ping loop of `testIpAvailability` over a list of attempt
indices, accumulating `allDelays` and `successCount` in order. -/
def runAux (conn : ℕ → ℤ → Option ℕ) (ports : List ℤ) : List ℕ → List ℕ × ℕ
  | [] => ([], 0)
  | i :: rest =>
    let r := oneAttempt (conn i) ports
    let acc := runAux conn ports rest
    (r.1 ++ acc.1, r.2 + acc.2)

/-- `reduce((sum, d) => sum + d, 0) / length` — the (unrounded) average of a
delay-sample list. -/
def meanQ (l : List ℕ) : ℚ := ((l.sum : ℕ) : ℚ) / l.length

/-- `reduce((sum, d) => sum + Math.pow(d - avgDelay, 2), 0) / length` — the
population variance of a delay-sample list (using the unrounded average,
exactly as the source does). -/
def varQ (l : List ℕ) : ℚ := ((l.map (fun d : ℕ => ((d : ℚ) - meanQ l) ^ 2)).sum) / l.length

/-- `Math.min(...validDelays)` for a non-empty list. -/
def natListMin (l : List ℕ) : ℕ := l.foldl min l.headI

/-- Result record of `testIpAvailability`. -/
structure AvailResult where
  isAvailable : Bool
  minDelay : ℚ
  avgDelay : ℚ
  stability : ℚ
deriving DecidableEq

/-- `testIpAvailability(ip, testPorts, pingCount)` from src/src/ipTester.js.
After the ping loop: if `successCount > 0`, the statistics are computed over
`validDelays = allDelays.filter(d => d < 999)`; `minDelay` is their minimum,
`avgDelay` the rounded average and `stability` the rounded population
variance.  Otherwise the address is reported unavailable with all-zero
statistics. -/
def testIpAvailability (ip : String) (testPorts : List ℤ) (pingCount : ℕ)
    (conn : ℕ → ℤ → Option ℕ) : AvailResult :=
  if isValidIp ip = false then ⟨false, 0, 0, 0⟩
  else
    let run := runAux conn testPorts (List.range pingCount)
    let successCount := run.2
    if 0 < successCount then
      let validDelays := run.1.filter (fun d => decide (d < 999))
      if 0 < validDelays.length then
        ⟨true, (natListMin validDelays : ℚ), round2 (meanQ validDelays),
          round2 (varQ validDelays)⟩
      else ⟨false, 0, 0, 0⟩
    else ⟨false, 0, 0, 0⟩

/-! ### Semantic characterization of the ping loop

`firstFast` and `minConn` describe, directly in terms of the connection
environment, what one iteration of the ping loop observes: the delay at
which the loop `break`s (first valid port connecting in under 200 ms), and
the minimum delay over all valid ports that connect. -/

/-- The delay on which one ping attempt `break`s: the first valid port (in
configuration order) whose connection succeeds in under 200 ms; slow or
failed ports before it are skipped. -/
def firstFast (conn : ℤ → Option ℕ) : List ℤ → Option ℕ
  | [] => none
  | p :: rest =>
    if validPort p then
      match conn p with
      | some d => if d < 200 then some d else firstFast conn rest
      | none => firstFast conn rest
    else firstFast conn rest

/-- Combine two optional minima (`none` = no sample). -/
def optMin2 : Option ℕ → Option ℕ → Option ℕ
  | none, b => b
  | some v, none => some v
  | some v, some w => some (min v w)

/-- The minimum delay over all valid ports that connect, over the whole port
list. -/
def minConn (conn : ℤ → Option ℕ) : List ℤ → Option ℕ
  | [] => none
  | p :: rest =>
    if validPort p then
      match conn p with
      | some d => optMin2 (some d) (minConn conn rest)
      | none => minConn conn rest
    else minConn conn rest

/-! ### Statistics helpers: duplicated samples and list minimum -/

/-- Each successful attempt pushes its delay twice; this is the resulting
shape of the sample list. -/
def dup (l : List ℕ) : List ℕ := l.flatMap (fun d => [d, d])

/-! ### Run-level characterization -/

/-- The successful attempts' delays of a run: one entry per attempt on which
the ping loop broke at a fast port. -/
def fastDelays (conn : ℕ → ℤ → Option ℕ) (ports : List ℤ) (pingCount : ℕ) : List ℕ :=
  (List.range pingCount).filterMap (fun i => firstFast (conn i) ports)

/-- Connection environment of the §8 scenario: attempt `i` connects on port
443 with delay `[50, 52, 48, 51, 49][i]`. -/
def scenarioConn (i : ℕ) (p : ℤ) : Option ℕ :=
  if p = 443 then [some 50, some 52, some 48, some 51, some 49].getD i none else none

/-- Connection environment with one failed attempt (attempt 0) and one
successful attempt (attempt 1, delay 50 on port 443). -/
def mixedConn (i : ℕ) (p : ℤ) : Option ℕ :=
  if p = 443 ∧ i = 1 then some 50 else none

/-- Connection environment in which every attempt connects on port 443, but
only with a delay of 300 ms (≥ 200 ms). -/
def slowConn (_ : ℕ) (p : ℤ) : Option ℕ :=
  if p = 443 then some 300 else none

/-! ## src/config/config.js — composite score and percentile filter -/

/-- `calculateScore(minDelay, avgDelay, bandwidth, stability)`: latency
component `max(0, 100 - avgDelay/2)` with weight 0.4, bandwidth component
`min(100, bandwidth*10)` with weight 0.3, stability component
`max(0, 100 - stability/10)` with weight 0.3, rounded to two decimals.
(`minDelay` is accepted but unused, as in the source.) -/
def calculateScore (minDelay avgDelay bandwidth stability : ℚ) : ℚ :=
  let latencyScore := max 0 (100 - avgDelay / 2)
  let bandwidthScore := min 100 (bandwidth * 10)
  let stabilityScore := max 0 (100 - stability / 10)
  let totalScore := latencyScore * 0.4 + bandwidthScore * 0.3 + stabilityScore * 0.3
  round2 totalScore

/-- Candidate record flowing through the percentile filter
(`{ip, minDelay, avgDelay, stability}`). -/
structure IpLatency where
  ip : String
  minDelay : ℚ
  avgDelay : ℚ
  stability : ℚ
deriving DecidableEq

/-- The sort comparator `(a, b) => a.avgDelay - b.avgDelay`: ascending by
average delay. -/
def latLe (a b : IpLatency) : Prop := a.avgDelay ≤ b.avgDelay

instance : DecidableRel latLe :=
  fun a b => inferInstanceAs (Decidable (a.avgDelay ≤ b.avgDelay))

instance : IsTotal IpLatency latLe := ⟨fun a b => le_total a.avgDelay b.avgDelay⟩

instance : IsTrans IpLatency latLe := ⟨fun _ _ _ h1 h2 => le_trans h1 h2⟩

/-- `latencyFilterIps(ipsWithLatency, percentage)` from src/config/config.js:
return the input unchanged when empty; otherwise stable-sort ascending by
`avgDelay` (V8's `Array.prototype.sort` is stable, and `List.insertionSort`
is a stable sort) and keep the first
`Math.max(1, Math.floor(length * percentage / 100))` entries
(`slice(0, keepCount)`). -/
def latencyFilterIps (ipsWithLatency : List IpLatency) (percentage : ℚ) :
    List IpLatency :=
  if ipsWithLatency.isEmpty then ipsWithLatency
  else
    let sortedIps := List.insertionSort latLe ipsWithLatency
    let keepCount := max 1 (⌊(sortedIps.length : ℚ) * percentage / 100⌋.toNat)
    sortedIps.take keepCount

/-- Ten candidates with average delays 1..10, already in ascending order. -/
def tenCandidates : List IpLatency :=
  [⟨"a", 1, 1, 0⟩, ⟨"b", 2, 2, 0⟩, ⟨"c", 3, 3, 0⟩, ⟨"d", 4, 4, 0⟩, ⟨"e", 5, 5, 0⟩,
    ⟨"f", 6, 6, 0⟩, ⟨"g", 7, 7, 0⟩, ⟨"h", 8, 8, 0⟩, ⟨"i", 9, 9, 0⟩, ⟨"j", 10, 10, 0⟩]

/-! ## src/src/geoResolver.js — geolocation cache

The in-memory cache `regionCache` is a JS object keyed by address: unique
keys, insertion order preserved — modelled as an association list.  An entry
is either the current `{region, timestamp}` shape or a legacy plain country
code string.  ISO-8601 timestamps (same format, fixed length) compare
lexicographically exactly as their epoch-millisecond values, so timestamps
are modelled as `ℤ` milliseconds, and the legacy `''` sort key used by the
cleanup sort is `⊥` (the empty string precedes every ISO string). -/

/-- A cache entry: legacy plain string, or `{region, timestamp}`. -/
inductive CacheEntry where
  | legacy (code : String)
  | timed (region : String) (timestamp : ℤ)
deriving DecidableEq

/-- Association-list cache with an arbitrary key type (the source keys by
address strings; the cleanup logic never inspects the key). -/
abbrev KeyedCache (K : Type) := List (K × CacheEntry)

/-- The address-keyed cache used by lookups. -/
abbrev GeoCache := KeyedCache String

/-- `regionCache[ip]` read. -/
def cacheLookup (c : GeoCache) (ip : String) : Option CacheEntry :=
  (c.find? (fun e => decide (e.1 = ip))).map (fun e => e.2)

/-- `regionCache[ip] = entry` write: replace in place if the key exists,
else append (JS object insertion order). -/
def cacheInsert (c : GeoCache) (ip : String) (entry : CacheEntry) : GeoCache :=
  if (c.find? (fun e => decide (e.1 = ip))).isSome then
    c.map (fun e => if e.1 = ip then (ip, entry) else e)
  else c ++ [(ip, entry)]

/-- `isCacheValid(timestamp, ttlHours)`: false for a missing/falsy
timestamp; otherwise the age in hours — `(now - cacheTime) / (1000*60*60)`
with `Date.now()` passed explicitly as `nowMs` — must be strictly below the
TTL. -/
def isCacheValid (timestamp : Option ℤ) (ttlHours : ℚ) (nowMs : ℤ) : Bool :=
  match timestamp with
  | none => false
  | some ts => decide ((((nowMs - ts : ℤ) : ℚ) / (1000 * 60 * 60)) < ttlHours)

/-- Outcome of the two geolocation HTTP providers for one address: `none`
models a failed lookup (request error, bad status, or missing country-code
field), `some s` a well-formed success whose country-code field is `s`. -/
structure GeoEnv where
  primary : Option String
  secondary : Option String

/-- `regionCache[ip] = {region, timestamp: now}`. -/
def storeRegion (cache : GeoCache) (ip region : String) (nowMs : ℤ) : GeoCache :=
  cacheInsert cache ip (.timed region nowMs)

/-- The backup-provider half of the query cascade: on a well-formed success
store and return the upper-cased code (an empty field is falsy in JS and
counts as failure); otherwise store and return the "Unknown" sentinel with
the current timestamp. -/
def trySecondaryApi (cache : GeoCache) (ip : String) (nowMs : ℤ)
    (secondary : Option String) : String × GeoCache :=
  match secondary with
  | some t =>
    if t.toUpper = "" then ("Unknown", storeRegion cache ip "Unknown" nowMs)
    else (t.toUpper, storeRegion cache ip t.toUpper nowMs)
  | none => ("Unknown", storeRegion cache ip "Unknown" nowMs)

/-- The full query cascade of `getIpRegion`: primary provider, then backup,
then the cached "Unknown" sentinel. -/
def queryApis (cache : GeoCache) (ip : String) (nowMs : ℤ) (env : GeoEnv) :
    String × GeoCache :=
  match env.primary with
  | some s =>
    if s.toUpper = "" then trySecondaryApi cache ip nowMs env.secondary
    else (s.toUpper, storeRegion cache ip s.toUpper nowMs)
  | none => trySecondaryApi cache ip nowMs env.secondary

/-- `getIpRegion(ip, apiTimeout, ttlHours)` from src/src/geoResolver.js,
with `Date.now()`, the cache state, and the providers' behaviour passed
explicitly; returns the region code and the updated cache.  A fresh timed
entry is returned as-is; a stale timed entry falls through to the API
cascade; a legacy plain-string entry is returned immediately with no
freshness check (an empty legacy string is falsy — `if (regionCache[ip])` —
and falls through to the cascade). -/
def getIpRegion (cache : GeoCache) (ip : String) (ttlHours : ℚ) (nowMs : ℤ)
    (env : GeoEnv) : String × GeoCache :=
  match cacheLookup cache ip with
  | some (.timed region ts) =>
    if isCacheValid (some ts) ttlHours nowMs then (region, cache)
    else queryApis cache ip nowMs env
  | some (.legacy code) =>
    if code = "" then queryApis cache ip nowMs env
    else (code, cache)
  | none => queryApis cache ip nowMs env

/-! ## src/config/config.js — bandwidth probe -/

/-- Outcome of one bandwidth download trial (one attempt × one URL): request
or stream error, non-200 status, or a finished transfer of `bytes` bytes in
`timeMs` milliseconds after a connection latency of `latMs` milliseconds. -/
inductive DlOutcome where
  | err
  | notOk
  | ok (bytes : ℕ) (timeMs : ℕ) (latMs : ℕ)

/-- Result record of `testIpBandwidth`. -/
structure BwResult where
  isFast : Bool
  bandwidth : ℚ
  latency : ℚ
deriving DecidableEq

/-- Trial order of `testIpBandwidth`: `testCount` attempts, two configured
URLs each. -/
def bwTrials (testCount : ℕ) : List (ℕ × ℕ) :=
  (List.range testCount).flatMap (fun a => [(a, 0), (a, 1)])

/-- The download loop of `testIpBandwidth`: skip failed trials; for each
finished transfer with `downloadTime > 0 && dataDownloaded > 0` compute
`speedMbps = bytes*8 / (downloadTime * 1e6)`, track the best speed and the
smallest latency, and return immediately once `speedMbps > 5`.  `Sum.inr`
is the early return, `Sum.inl` the fall-through with the final best pair. -/
def bwLoop (env : ℕ → ℕ → DlOutcome) : List (ℕ × ℕ) → ℚ → ℚ → (ℚ × ℚ) ⊕ BwResult
  | [], bestSpeed, bestLatency => Sum.inl (bestSpeed, bestLatency)
  | t :: rest, bestSpeed, bestLatency =>
    match env t.1 t.2 with
    | .err => bwLoop env rest bestSpeed bestLatency
    | .notOk => bwLoop env rest bestSpeed bestLatency
    | .ok bytes timeMs latMs =>
      let downloadTime : ℚ := (timeMs : ℚ) / 1000
      if 0 < downloadTime ∧ 0 < bytes then
        let speedMbps := ((bytes : ℚ) * 8) / (downloadTime * 1000000)
        let bestSpeed2 := max bestSpeed speedMbps
        let bestLatency2 :=
          if bestLatency = 0 then (latMs : ℚ) else min bestLatency (latMs : ℚ)
        if 5 < speedMbps then Sum.inr ⟨true, bestSpeed2, bestLatency2⟩
        else bwLoop env rest bestSpeed2 bestLatency2
      else bwLoop env rest bestSpeed bestLatency

/-- `testIpBandwidth(ip, testSizeMb, testCount)` from src/config/config.js,
with the download outcomes and the fallback probe's TCP behaviour passed
explicitly (`testSizeMb` only parameterizes the URLs).  After the loop: a
positive best speed is returned as fast; otherwise fall back to
`testIpAvailability(ip, [443], 1)` and return its `minDelay` as the latency
with zero bandwidth, or report total failure. -/
def testIpBandwidth (ip : String) (testCount : ℕ) (env : ℕ → ℕ → DlOutcome)
    (fconn : ℕ → ℤ → Option ℕ) : BwResult :=
  if isValidIp ip = false then ⟨false, 0, 0⟩
  else
    match bwLoop env (bwTrials testCount) 0 0 with
    | Sum.inr r => r
    | Sum.inl best =>
      if 0 < best.1 then ⟨true, best.1, best.2⟩
      else
        let fb := testIpAvailability ip [443] 1 fconn
        if fb.isAvailable then ⟨true, 0, fb.minDelay⟩
        else ⟨false, 0, 0⟩

/-- A trial that yields no positive measurement: failed outright, bad
status, or zero bytes / zero elapsed time. -/
def noBytes : DlOutcome → Prop
  | .err => True
  | .notOk => True
  | .ok bytes timeMs _ => bytes = 0 ∨ timeMs = 0

/-- Download environment in which every trial finishes with 0 bytes after
500 ms of streaming and 20 ms of connection latency. -/
def zeroByteEnv (_ : ℕ) (_ : ℕ) : DlOutcome := DlOutcome.ok 0 500 20

/-- Fallback connection behaviour: port 443 connects in 50 ms. -/
def fbConn (_ : ℕ) (p : ℤ) : Option ℕ := if p = 443 then some 50 else none

/-! ## src/src/geoResolver.js — cache cleanup (`cleanExpiredCache`) -/

/-- Sort key of the cleanup sort, `(entry?.timestamp || '')` compared with
`localeCompare`: ISO-8601 timestamps of the same fixed-length format compare
lexicographically exactly as their epoch-millisecond values, and the legacy
`''` precedes every timestamp, so the key is `⊥` for a legacy entry and the
timestamp otherwise. -/
def entryKey : CacheEntry → WithBot ℤ
  | .legacy _ => ⊥
  | .timed _ ts => (ts : WithBot ℤ)

/-- The cleanup sort comparator: ascending by timestamp key. -/
def cleanLe {K : Type} (a b : K × CacheEntry) : Prop := entryKey a.2 ≤ entryKey b.2

instance {K : Type} : DecidableRel (@cleanLe K) :=
  fun a b => inferInstanceAs (Decidable (entryKey a.2 ≤ entryKey b.2))

instance {K : Type} : IsTotal (K × CacheEntry) cleanLe :=
  ⟨fun a b => le_total (entryKey a.2) (entryKey b.2)⟩

instance {K : Type} : IsTrans (K × CacheEntry) cleanLe :=
  ⟨fun _ _ _ h1 h2 => le_trans h1 h2⟩

/-- The expiry predicate of the cleanup pass: only `{region, timestamp}`
entries expire, once their age in hours reaches the retention TTL. -/
def isExpiredEntry (nowMs : ℤ) (ttlHours : ℚ) : CacheEntry → Bool
  | .legacy _ => false
  | .timed _ ts => decide (ttlHours ≤ ((nowMs - ts : ℤ) : ℚ) / (1000 * 60 * 60))

/-- The expiry phase of `cleanExpiredCache`: collect `expiredKeys` and
delete them.  Deleting a key from a JS object preserves the order of the
remaining entries, hence the `filter`. -/
def expiryPass {K : Type} [DecidableEq K] (cache : KeyedCache K)
    (ttlHours : ℚ) (nowMs : ℤ) : KeyedCache K :=
  cache.filter (fun e => decide (e.1 ∉
    ((cache.filter (fun x => isExpiredEntry nowMs ttlHours x.2)).map (fun x => x.1))))

/-- The size-cap phase of `cleanExpiredCache`: if more than 1000 entries
remain, sort ascending by timestamp key (stable, like V8's sort) and delete
the keys of the first `itemsToRemove = size - 1000` (oldest) entries. -/
def capacityPass {K : Type} [DecidableEq K] (cache : KeyedCache K) : KeyedCache K :=
  if 1000 < cache.length then
    cache.filter (fun e => decide (e.1 ∉
      (((List.insertionSort cleanLe cache).take (cache.length - 1000)).map
        (fun x => x.1))))
  else cache

/-- `cleanExpiredCache(ttlHours)` from src/src/geoResolver.js: the expiry
pass over the retention TTL, then the 1000-entry size cap.  The logic never
inspects the key value, so the key type is arbitrary. -/
def cleanExpiredCache {K : Type} [DecidableEq K] (cache : KeyedCache K)
    (ttlHours : ℚ) (nowMs : ℤ) : KeyedCache K :=
  capacityPass (expiryPass cache ttlHours nowMs)

/-- A concrete 1200-entry cache: key `i`, region "US", timestamp `i` ms. -/
def bigCache : KeyedCache ℕ :=
  (List.range 1200).map (fun i => (i, CacheEntry.timed "US" (i : ℤ)))

/-! ## Theorems -/

lemma optMin2_optMin (m : Option ℕ) (d : ℕ) (x : Option ℕ) :
    optMin2 (optMin m d) x = optMin2 m (optMin2 (some d) x) := by
  cases m <;> cases x <;> simp [optMin, optMin2, min_assoc]

/-- Characterization of the inner port loop.  If the accumulated `minDelay`
holds only values `≥ 200` (true initially, `Infinity = none`), then either
the loop breaks at the first fast port `d`, having pushed `[d]`, counted one
success, and accumulated exactly `d` as minimum; or it never breaks, pushes
nothing, counts no success, and accumulates the minimum of all connected
ports. -/
lemma portLoop_eq (conn : ℤ → Option ℕ) (ports : List ℤ) (m : Option ℕ)
    (hm : ∀ v, m = some v → 200 ≤ v) :
    portLoop conn ports m =
      match firstFast conn ports with
      | some d => ([d], 1, some d)
      | none => ([], 0, optMin2 m (minConn conn ports)) := by
  induction ports generalizing m with
  | nil =>
    cases m <;> simp [portLoop, firstFast, minConn, optMin2]
  | cons p rest ih =>
    simp only [portLoop, firstFast, minConn]
    by_cases hp : validPort p
    · simp only [hp, if_true]
      cases hc : conn p with
      | none => exact ih m hm
      | some d =>
        by_cases hd : d < 200
        · simp only [hd, if_true]
          have : optMin m d = some d := by
            cases m with
            | none => rfl
            | some v =>
              have hv : 200 ≤ v := hm v rfl
              simp [optMin, Nat.min_eq_right (le_trans (le_of_lt hd) hv)]
          simp [this]
        · simp only [hd, if_false]
          have hm' : ∀ v, optMin m d = some v → 200 ≤ v := by
            intro v hv
            cases m with
            | none =>
              simp [optMin] at hv
              omega
            | some w =>
              have hw : 200 ≤ w := hm w rfl
              simp [optMin] at hv
              omega
          rw [ih (optMin m d) hm']
          cases hf : firstFast conn rest <;> simp [optMin2_optMin]
    · simp only [hp, if_false]
      exact ih m hm

/-- One ping attempt, case "the loop breaks at delay `d`": the attempt
pushes `d` twice onto `allDelays` — once in the break branch and once more
as the attempt's accumulated `minDelay` — and counts one success. -/
lemma oneAttempt_fast {conn : ℤ → Option ℕ} {ports : List ℤ} {d : ℕ}
    (h : firstFast conn ports = some d) : oneAttempt conn ports = ([d, d], 1) := by
  unfold oneAttempt
  rw [portLoop_eq conn ports none (by intro v hv; cases hv)]
  simp [h]

/-- One ping attempt, case "no fast port": the attempt pushes one sample —
the minimum connected delay, or the 999 sentinel when nothing connected —
and counts no success. -/
lemma oneAttempt_slow {conn : ℤ → Option ℕ} {ports : List ℤ}
    (h : firstFast conn ports = none) :
    oneAttempt conn ports = ([(minConn conn ports).getD 999], 0) := by
  unfold oneAttempt
  rw [portLoop_eq conn ports none (by intro v hv; cases hv)]
  cases hmc : minConn conn ports <;> simp [h, hmc, optMin2]

/-- The outer ping loop, written as a `flatMap`/`map` over attempt indices. -/
lemma runAux_eq (conn : ℕ → ℤ → Option ℕ) (ports : List ℤ) (idxs : List ℕ) :
    runAux conn ports idxs =
      (idxs.flatMap (fun i => (oneAttempt (conn i) ports).1),
        (idxs.map (fun i => (oneAttempt (conn i) ports).2)).sum) := by
  induction idxs with
  | nil => simp [runAux]
  | cons i rest ih => simp [runAux, ih]

lemma firstFast_lt_200 {conn : ℤ → Option ℕ} {ports : List ℤ} {d : ℕ}
    (h : firstFast conn ports = some d) : d < 200 := by
  induction ports with
  | nil => cases h
  | cons p rest ih =>
    revert h
    unfold firstFast
    by_cases hp : validPort p
    · cases hc : conn p with
      | none =>
        simp only [hp, if_true, hc]
        exact ih
      | some e =>
        by_cases hd : e < 200
        · simp only [hp, if_true, hc, hd]
          intro h
          cases h
          omega
        · simp only [hp, if_true, hc, hd, if_false]
          exact ih
    · simp only [hp, if_false]
      exact ih

lemma firstFast_exists_iff (conn : ℤ → Option ℕ) (ports : List ℤ) :
    (∃ d, firstFast conn ports = some d) ↔
      ∃ p ∈ ports, validPort p = true ∧ ∃ d, conn p = some d ∧ d < 200 := by
  induction ports with
  | nil => simp [firstFast]
  | cons p rest ih =>
    have hstep : ∀ P : Option ℕ → Prop,
        P (firstFast conn (p :: rest)) ↔
          (if validPort p then
            (match conn p with
              | some d => if d < 200 then P (some d) else P (firstFast conn rest)
              | none => P (firstFast conn rest))
            else P (firstFast conn rest)) := by
      intro P
      by_cases hp : validPort p
      · cases hc : conn p with
        | none => simp [firstFast, hp, hc]
        | some e =>
          by_cases he : e < 200 <;> simp [firstFast, hp, hc, he]
      · simp [firstFast, hp]
    rw [hstep (fun o => ∃ d, o = some d)]
    by_cases hp : validPort p
    · cases hc : conn p with
      | none =>
        simp only [hp, if_true, hc]
        rw [ih]
        constructor
        · rintro ⟨q, hq, hrest⟩
          exact ⟨q, List.mem_cons_of_mem p hq, hrest⟩
        · rintro ⟨q, hq, hvq, d', hd', hd2⟩
          rcases List.mem_cons.mp hq with h1 | h1
          · subst h1
            rw [hc] at hd'
            cases hd'
          · exact ⟨q, h1, hvq, d', hd', hd2⟩
      | some e =>
        by_cases he : e < 200
        · simp only [hp, if_true, hc, he]
          constructor
          · intro _
            exact ⟨p, List.mem_cons_self p rest, hp, e, hc, he⟩
          · intro _
            exact ⟨e, rfl⟩
        · simp only [hp, if_true, hc, he, if_false]
          rw [ih]
          constructor
          · rintro ⟨q, hq, hrest⟩
            exact ⟨q, List.mem_cons_of_mem p hq, hrest⟩
          · rintro ⟨q, hq, hvq, d', hd', hd2⟩
            rcases List.mem_cons.mp hq with h1 | h1
            · subst h1
              rw [hc] at hd'
              injection hd' with hde
              omega
            · exact ⟨q, h1, hvq, d', hd', hd2⟩
    · simp only [hp, if_false]
      rw [ih]
      constructor
      · rintro ⟨q, hq, hrest⟩
        exact ⟨q, List.mem_cons_of_mem p hq, hrest⟩
      · rintro ⟨q, hq, hvq, d', hd', hd2⟩
        rcases List.mem_cons.mp hq with h1 | h1
        · subst h1
          rw [hvq] at hp
          exact absurd rfl hp
        · exact ⟨q, h1, hvq, d', hd', hd2⟩

/-- Per-attempt `successCount` increment: 1 exactly when the attempt breaks
at a fast port. -/
lemma oneAttempt_succ (conn : ℤ → Option ℕ) (ports : List ℤ) :
    (oneAttempt conn ports).2 = if (firstFast conn ports).isSome = true then 1 else 0 := by
  cases h : firstFast conn ports with
  | none => rw [oneAttempt_slow h]; rfl
  | some d => rw [oneAttempt_fast h]; rfl

lemma dup_cons (a : ℕ) (t : List ℕ) : dup (a :: t) = a :: a :: dup t := by
  simp [dup, List.flatMap_cons]

lemma mem_dup {x : ℕ} {l : List ℕ} : x ∈ dup l ↔ x ∈ l := by
  simp [dup]

lemma sum_dup (l : List ℕ) : (dup l).sum = 2 * l.sum := by
  induction l with
  | nil => simp [dup]
  | cons a t ih =>
    rw [dup_cons, List.sum_cons, List.sum_cons, List.sum_cons, ih]
    omega

lemma length_dup (l : List ℕ) : (dup l).length = 2 * l.length := by
  induction l with
  | nil => simp [dup]
  | cons a t ih =>
    rw [dup_cons, List.length_cons, List.length_cons, List.length_cons, ih]
    omega

lemma sqsum_dup (l : List ℕ) (m : ℚ) :
    ((dup l).map (fun d : ℕ => ((d : ℚ) - m) ^ 2)).sum =
      2 * ((l.map (fun d : ℕ => ((d : ℚ) - m) ^ 2)).sum) := by
  induction l with
  | nil => simp [dup]
  | cons a t ih =>
    rw [dup_cons, List.map_cons, List.map_cons, List.sum_cons, List.sum_cons,
      List.map_cons, List.sum_cons, ih]
    ring

lemma meanQ_dup (l : List ℕ) : meanQ (dup l) = meanQ l := by
  unfold meanQ
  rw [sum_dup, length_dup]
  push_cast
  rw [mul_div_mul_left _ _ (by norm_num : (2 : ℚ) ≠ 0)]

lemma varQ_dup (l : List ℕ) : varQ (dup l) = varQ l := by
  unfold varQ
  rw [meanQ_dup l, sqsum_dup, length_dup]
  push_cast
  rw [mul_div_mul_left _ _ (by norm_num : (2 : ℚ) ≠ 0)]

lemma foldl_min_le_init (t : List ℕ) (a : ℕ) : t.foldl min a ≤ a := by
  induction t generalizing a with
  | nil => simp
  | cons x rest ih => exact le_trans (ih (min a x)) (min_le_left a x)

lemma foldl_min_mem (t : List ℕ) (a : ℕ) : t.foldl min a = a ∨ t.foldl min a ∈ t := by
  induction t generalizing a with
  | nil => simp
  | cons x rest ih =>
    have hfold : (x :: rest).foldl min a = rest.foldl min (min a x) := rfl
    rcases ih (min a x) with h | h
    · rcases Nat.le_total a x with hax | hax
      · left
        rw [hfold, h, min_eq_left hax]
      · right
        rw [hfold, h, min_eq_right hax]
        exact List.mem_cons_self x rest
    · right
      rw [hfold]
      exact List.mem_cons_of_mem x h

lemma foldl_min_le_mem (t : List ℕ) (a : ℕ) : ∀ x ∈ t, t.foldl min a ≤ x := by
  induction t generalizing a with
  | nil => simp
  | cons y rest ih =>
    intro x hx
    rcases List.mem_cons.mp hx with h | h
    · subst h
      exact le_trans (foldl_min_le_init rest (min a x)) (min_le_right a x)
    · exact ih (min a y) x h

lemma natListMin_mem {l : List ℕ} (h : l ≠ []) : natListMin l ∈ l := by
  cases l with
  | nil => exact absurd rfl h
  | cons a t =>
    rcases foldl_min_mem (a :: t) a with h1 | h1
    · rw [natListMin, List.headI, h1]
      exact List.mem_cons_self a t
    · rw [natListMin, List.headI]
      exact h1

lemma natListMin_le {l : List ℕ} : ∀ x ∈ l, natListMin l ≤ x := by
  cases l with
  | nil => simp
  | cons a t =>
    intro x hx
    exact foldl_min_le_mem (a :: t) a x hx

/-- `Math.min` depends only on the set of samples: equal membership gives
equal minimum. -/
lemma natListMin_congr {l₁ l₂ : List ℕ} (h₁ : l₁ ≠ []) (h₂ : l₂ ≠ [])
    (hmem : ∀ x, x ∈ l₁ ↔ x ∈ l₂) : natListMin l₁ = natListMin l₂ :=
  le_antisymm
    (natListMin_le _ ((hmem _).mpr (natListMin_mem h₂)))
    (natListMin_le _ ((hmem _).mp (natListMin_mem h₁)))

lemma dup_ne_nil {l : List ℕ} (h : l ≠ []) : dup l ≠ [] := by
  cases l with
  | nil => exact absurd rfl h
  | cons a t => simp [dup, List.flatMap_cons]

lemma natListMin_dup {l : List ℕ} (h : l ≠ []) : natListMin (dup l) = natListMin l :=
  natListMin_congr (dup_ne_nil h) h (fun _ => mem_dup)

/-- `successCount` equals the number of attempts that broke at a fast port. -/
lemma successCount_eq (conn : ℕ → ℤ → Option ℕ) (ports : List ℤ) (idxs : List ℕ) :
    (idxs.map (fun i => (oneAttempt (conn i) ports).2)).sum =
      (idxs.filterMap (fun i => firstFast (conn i) ports)).length := by
  induction idxs with
  | nil => simp
  | cons i rest ih =>
    rw [List.map_cons, List.sum_cons, ih, List.filterMap_cons]
    cases hf : firstFast (conn i) ports with
    | none => simp [oneAttempt_succ, hf]
    | some d =>
      simp [oneAttempt_succ, hf]
      omega

/-- For a run whose attempts each either break at a fast port or fail to
connect entirely, `validDelays` is exactly the per-attempt fast delays, each
sample duplicated (break push + `minDelay` push). -/
lemma validDelays_dup (conn : ℕ → ℤ → Option ℕ) (ports : List ℤ) (idxs : List ℕ)
    (hsplit : ∀ i ∈ idxs,
      (firstFast (conn i) ports).isSome = true ∨ minConn (conn i) ports = none) :
    (idxs.flatMap (fun i => (oneAttempt (conn i) ports).1)).filter
        (fun d => decide (d < 999)) =
      dup (idxs.filterMap (fun i => firstFast (conn i) ports)) := by
  induction idxs with
  | nil => simp [dup]
  | cons i rest ih =>
    have hrest := ih (fun j hj => hsplit j (List.mem_cons_of_mem i hj))
    rw [List.flatMap_cons, List.filter_append, hrest, List.filterMap_cons]
    cases hf : firstFast (conn i) ports with
    | some d =>
      have hd : d < 200 := firstFast_lt_200 hf
      rw [oneAttempt_fast hf, dup_cons]
      have h999 : d < 999 := by omega
      have hfil : List.filter (fun x => decide (x < 999)) [d, d] = [d, d] := by
        simp [List.filter_cons, h999]
      rw [hfil]
      rfl
    | none =>
      rcases hsplit i (List.mem_cons_self i rest) with hs | hs
      · rw [hf] at hs
        cases hs
      · rw [oneAttempt_slow hf, hs]
        simp [List.filter]

/-- A fast attempt contributes its delay to `validDelays` (no hypothesis on
the other attempts). -/
lemma mem_validDelays_of_fast {conn : ℕ → ℤ → Option ℕ} {ports : List ℤ}
    {idxs : List ℕ} {i : ℕ} {d : ℕ} (hi : i ∈ idxs)
    (hf : firstFast (conn i) ports = some d) :
    d ∈ (idxs.flatMap (fun j => (oneAttempt (conn j) ports).1)).filter
      (fun x => decide (x < 999)) := by
  apply List.mem_filter.mpr
  refine ⟨List.mem_flatMap.mpr ⟨i, hi, ?_⟩, ?_⟩
  · rw [oneAttempt_fast hf]
    exact List.mem_cons_self _ _
  · have := firstFast_lt_200 hf
    simp
    omega

/-- The run produces at least one fast attempt iff some attempt index below
`pingCount` has a valid port connecting in under 200 ms. -/
lemma fastDelays_ne_nil_iff (conn : ℕ → ℤ → Option ℕ) (ports : List ℤ) (pingCount : ℕ) :
    fastDelays conn ports pingCount ≠ [] ↔
      ∃ i, i < pingCount ∧
        ∃ p ∈ ports, validPort p = true ∧ ∃ d, conn i p = some d ∧ d < 200 := by
  unfold fastDelays
  constructor
  · intro h
    rcases List.exists_mem_of_ne_nil _ h with ⟨d, hd⟩
    rcases List.mem_filterMap.mp hd with ⟨i, hi, hf⟩
    exact ⟨i, List.mem_range.mp hi, (firstFast_exists_iff (conn i) ports).mp ⟨d, hf⟩⟩
  · rintro ⟨i, hi, hex⟩
    rcases (firstFast_exists_iff (conn i) ports).mpr hex with ⟨d, hf⟩
    intro hnil
    have : d ∈ (List.range pingCount).filterMap (fun i => firstFast (conn i) ports) :=
      List.mem_filterMap.mpr ⟨i, List.mem_range.mpr hi, hf⟩
    rw [hnil] at this
    cases this

/-- Evaluation of the §8 scenario: each attempt breaks at its fast delay and
pushes it twice; duplication changes neither `Math.min`, the mean, nor the
variance, so the result is min 48, average 50, population variance 2. -/
lemma scenarioConn_eval : testIpAvailability "203.0.113.5" [443] 5 scenarioConn =
    ⟨true, 48, 50, 2⟩ := by
  have hval : isValidIp "203.0.113.5" = true := by decide
  have hrun : runAux scenarioConn [443] (List.range 5) =
      ([50, 50, 52, 52, 48, 48, 51, 51, 49, 49], 5) := by decide
  have hfil : List.filter (fun d => decide (d < 999))
      [50, 50, 52, 52, 48, 48, 51, 51, 49, 49] =
      [50, 50, 52, 52, 48, 48, 51, 51, 49, 49] := by decide
  have hmin : natListMin [50, 50, 52, 52, 48, 48, 51, 51, 49, 49] = 48 := by decide
  simp only [testIpAvailability, hval, hrun, hfil, hmin]
  norm_num [AvailResult.mk.injEq, meanQ, varQ, round2]

/-- Evaluation of the mixed run: the failed attempt's 999 sentinel enters
`allDelays` but is filtered out; the statistics come from the successful
attempt alone. -/
lemma mixedConn_eval : testIpAvailability "203.0.113.5" [443] 2 mixedConn =
    ⟨true, 50, 50, 0⟩ := by
  have hval : isValidIp "203.0.113.5" = true := by decide
  have hrun : runAux mixedConn [443] (List.range 2) = ([999, 50, 50], 1) := by decide
  have hfil : List.filter (fun d => decide (d < 999)) [999, 50, 50] = [50, 50] := by
    decide
  have hmin : natListMin [50, 50] = 50 := by decide
  simp only [testIpAvailability, hval, hrun, hfil, hmin]
  norm_num [AvailResult.mk.injEq, meanQ, varQ, round2]

/-- Branch analysis: with no fast attempt, `successCount = 0` and the
address is reported unavailable with all-zero statistics. -/
lemma testIpAvailability_no_fast {ip : String} {ports : List ℤ} {pingCount : ℕ}
    {conn : ℕ → ℤ → Option ℕ} (hip : isValidIp ip = true)
    (hnil : fastDelays conn ports pingCount = []) :
    testIpAvailability ip ports pingCount conn = ⟨false, 0, 0, 0⟩ := by
  have hsc : (runAux conn ports (List.range pingCount)).2 = 0 := by
    rw [runAux_eq, successCount_eq]
    show (fastDelays conn ports pingCount).length = 0
    rw [hnil]
    rfl
  unfold testIpAvailability
  rw [hip]
  simp [hsc]

/-- Branch analysis: with at least one fast attempt the address is reported
available (no hypothesis on the other attempts). -/
lemma testIpAvailability_available {ip : String} {ports : List ℤ} {pingCount : ℕ}
    {conn : ℕ → ℤ → Option ℕ} (hip : isValidIp ip = true)
    (hfast : fastDelays conn ports pingCount ≠ []) :
    (testIpAvailability ip ports pingCount conn).isAvailable = true := by
  rcases List.exists_mem_of_ne_nil _ hfast with ⟨d, hd⟩
  rcases List.mem_filterMap.mp hd with ⟨i, hi, hf⟩
  have hsc : (runAux conn ports (List.range pingCount)).2 =
      (fastDelays conn ports pingCount).length := by
    rw [runAux_eq, successCount_eq]
    rfl
  have hvpos : 0 < ((runAux conn ports (List.range pingCount)).1.filter
      (fun x => decide (x < 999))).length := by
    rw [runAux_eq]
    exact List.length_pos.mpr (List.ne_nil_of_mem (mem_validDelays_of_fast hi hf))
  have hpos : 0 < (fastDelays conn ports pingCount).length := List.length_pos.mpr hfast
  unfold testIpAvailability
  rw [hip]
  simp [hsc, hvpos, hpos]

/-- C1 (amended): each attempt that cannot connect on any configured port is
recorded as the large sentinel delay 999 in the raw sample list `allDelays`,
but the sentinel is then filtered out (`allDelays.filter(d => d < 999)`)
before any statistics are computed.  Hence, for a run of a valid address
whose attempts each either break at a fast port (< 200 ms) or fail to
connect entirely, with at least one fast attempt, the reported minDelay,
avgDelay and stability are exactly the (rounded) minimum, mean and
population variance of the successful attempts' delays alone — each sample
being counted twice, which changes none of the three statistics — so failed
attempts do not depress the average or inflate the stability metric. -/
theorem c1_sentinel_filtered (ip : String) (ports : List ℤ) (pingCount : ℕ)
    (conn : ℕ → ℤ → Option ℕ) (hip : isValidIp ip = true)
    (hsplit : ∀ i, i < pingCount →
      (firstFast (conn i) ports).isSome = true ∨ minConn (conn i) ports = none)
    (hfast : fastDelays conn ports pingCount ≠ []) :
    testIpAvailability ip ports pingCount conn =
      ⟨true, (natListMin (fastDelays conn ports pingCount) : ℚ),
        round2 (meanQ (fastDelays conn ports pingCount)),
        round2 (varQ (fastDelays conn ports pingCount))⟩ := by
  have hsc : (runAux conn ports (List.range pingCount)).2 =
      (fastDelays conn ports pingCount).length := by
    rw [runAux_eq, successCount_eq]
    rfl
  have hvd : (runAux conn ports (List.range pingCount)).1.filter
      (fun d => decide (d < 999)) = dup (fastDelays conn ports pingCount) := by
    rw [runAux_eq]
    exact validDelays_dup conn ports (List.range pingCount)
      (fun i hi => hsplit i (List.mem_range.mp hi))
  have hpos : 0 < (fastDelays conn ports pingCount).length :=
    List.length_pos.mpr hfast
  have hdpos : 0 < (dup (fastDelays conn ports pingCount)).length := by
    rw [length_dup]
    omega
  unfold testIpAvailability
  rw [hip]
  simp [hsc, hvd, hpos, hdpos, natListMin_dup hfast, meanQ_dup, varQ_dup]

/-- C1 (witness): the mixed run — attempt 0 fails, attempt 1 connects at
50 ms — satisfies the hypotheses of `c1_sentinel_filtered`, and the reported
statistics are those of the successful attempt alone. -/
theorem c1_witness :
    fastDelays mixedConn [443] 2 ≠ [] ∧
      testIpAvailability "203.0.113.5" [443] 2 mixedConn =
        ⟨true, (natListMin (fastDelays mixedConn [443] 2) : ℚ),
          round2 (meanQ (fastDelays mixedConn [443] 2)),
          round2 (varQ (fastDelays mixedConn [443] 2))⟩ :=
  ⟨by decide,
    c1_sentinel_filtered "203.0.113.5" [443] 2 mixedConn (by decide)
      (by decide) (by decide)⟩

/-- C1 (counterexample): the mixed run has one failed attempt and one
successful attempt (delay 50); the claim asserts the reported avgDelay and
stability then differ from the statistics over the successful attempts
alone, but the code filters the 999 sentinel out before computing them, so
they are exactly the mean (50) and population variance (0) of the successful
sample list `[50]`. -/
theorem c1_counterexample :
    (testIpAvailability "203.0.113.5" [443] 2 mixedConn).avgDelay = meanQ [50] ∧
      (testIpAvailability "203.0.113.5" [443] 2 mixedConn).stability = varQ [50] := by
  rw [mixedConn_eval]
  constructor <;> norm_num [meanQ, varQ]

/-- C4 (amended): for a valid address, the stability pass reports
unavailable-with-all-zero-statistics iff no attempt connected on any valid
configured port *in under 200 ms* (the `successCount` criterion), and
reports available iff some attempt did.  An attempt that connects only with
delay ≥ 200 ms does not count as success, so "some attempt connected" alone
does not make the address available. -/
theorem c4_available_iff_fast (ip : String) (ports : List ℤ) (pingCount : ℕ)
    (conn : ℕ → ℤ → Option ℕ) (hip : isValidIp ip = true) :
    (testIpAvailability ip ports pingCount conn = ⟨false, 0, 0, 0⟩ ↔
      ¬ ∃ i, i < pingCount ∧ ∃ p ∈ ports, validPort p = true ∧
        ∃ d, conn i p = some d ∧ d < 200) ∧
    ((testIpAvailability ip ports pingCount conn).isAvailable = true ↔
      ∃ i, i < pingCount ∧ ∃ p ∈ ports, validPort p = true ∧
        ∃ d, conn i p = some d ∧ d < 200) := by
  have hiff := fastDelays_ne_nil_iff conn ports pingCount
  constructor
  · constructor
    · intro hz hex
      have h := testIpAvailability_available hip (hiff.mpr hex)
      rw [hz] at h
      cases h
    · intro hnx
      have hnil : fastDelays conn ports pingCount = [] := by
        by_contra h
        exact hnx (hiff.mp h)
      exact testIpAvailability_no_fast hip hnil
  · constructor
    · intro hav
      by_contra hnx
      have hnil : fastDelays conn ports pingCount = [] := by
        by_contra h
        exact hnx (hiff.mp h)
      have hz := testIpAvailability_no_fast hip hnil
      rw [hz] at hav
      cases hav
    · intro hex
      exact testIpAvailability_available hip (hiff.mpr hex)

/-- C4 (witness): on the mixed run the address is available and the
all-zero outcome is equivalent to the absence of a fast attempt. -/
theorem c4_witness :
    isValidIp "203.0.113.5" = true ∧
      ((testIpAvailability "203.0.113.5" [443] 2 mixedConn).isAvailable = true ↔
        ∃ i, i < 2 ∧ ∃ p ∈ [(443 : ℤ)], validPort p = true ∧
          ∃ d, mixedConn i p = some d ∧ d < 200) :=
  ⟨by decide, (c4_available_iff_fast "203.0.113.5" [443] 2 mixedConn (by decide)).2⟩

/-- C4 (counterexample): with one attempt connecting at 300 ms, the attempt
DID connect on a configured port, yet the code reports the address
unavailable with all-zero statistics (`successCount` only counts connections
under 200 ms), contradicting the claimed "if and only if no attempt actually
connected". -/
theorem c4_counterexample :
    (∃ d, slowConn 0 443 = some d) ∧
      testIpAvailability "203.0.113.5" [443] 1 slowConn = ⟨false, 0, 0, 0⟩ :=
  ⟨⟨300, rfl⟩, rfl⟩

/-- C7 (counterexample): in the §8 scenario (five attempts, delays
[50, 52, 48, 51, 49], all connecting), the reported stability is 2.0 — the
population variance of the samples — not the 1.6 the spec asserts. -/
theorem c7_counterexample :
    (testIpAvailability "203.0.113.5" [443] 5 scenarioConn).stability = 2 ∧
      (testIpAvailability "203.0.113.5" [443] 5 scenarioConn).stability ≠ 8 / 5 := by
  rw [scenarioConn_eval]
  norm_num

/-- C7 (amended): the §8 stability probe over 5 attempts with delays
[50, 52, 48, 51, 49] yields minDelay 48 and avgDelay 50.0 as the spec says,
but stability 2.0 (the population variance of the successful delay samples),
not 1.6. -/
theorem c7_scenario_stats :
    testIpAvailability "203.0.113.5" [443] 5 scenarioConn = ⟨true, 48, 50, 2⟩ :=
  scenarioConn_eval

/-- C8: for all inputs, `calculateScore` equals the spec's weighted
composite `max(0, 100 - avgDelay/2)*0.4 + min(100, bandwidth*10)*0.3 +
max(0, 100 - stability/10)*0.3` rounded to two decimal places, and in
particular `calculateScore 10 10 10 0 = 98.00`. -/
theorem c8_calculateScore_spec :
    (∀ minDelay avgDelay bandwidth stability : ℚ,
      calculateScore minDelay avgDelay bandwidth stability =
        round2 (max 0 (100 - avgDelay / 2) * 0.4 + min 100 (bandwidth * 10) * 0.3 +
          max 0 (100 - stability / 10) * 0.3)) ∧
    calculateScore 10 10 10 0 = 98 := by
  constructor
  · intro minDelay avgDelay bandwidth stability
    rfl
  · show round2 (max 0 (100 - (10 : ℚ) / 2) * 0.4 + min 100 ((10 : ℚ) * 10) * 0.3 +
      max 0 (100 - (0 : ℚ) / 10) * 0.3) = 98
    norm_num [round2]

/-- C2 (amended): for every non-empty candidate list and percentage, the
filter keeps exactly the first `max(1, floor(n * pct/100))` entries — floor,
not ceil — of the list sorted ascending by average delay (capped at `n`):
the result has that length, is sorted ascending by `avgDelay`, and is a
prefix of an ascending-sorted permutation of the input. -/
theorem c2_floor_percentile (l : List IpLatency) (pct : ℚ) (h : l ≠ []) :
    (latencyFilterIps l pct).length =
        min (max 1 (⌊(l.length : ℚ) * pct / 100⌋.toNat)) l.length ∧
      List.Sorted latLe (latencyFilterIps l pct) ∧
      (latencyFilterIps l pct) <+: List.insertionSort latLe l ∧
      List.Perm (List.insertionSort latLe l) l := by
  have hne : l.isEmpty = false := by
    cases l with
    | nil => exact absurd rfl h
    | cons a t => rfl
  unfold latencyFilterIps
  rw [hne]
  simp only [Bool.false_eq_true, if_false, List.length_insertionSort]
  refine ⟨?_, ?_, List.take_prefix _ _, List.perm_insertionSort latLe l⟩
  · rw [List.length_take, List.length_insertionSort]
  · exact (List.sorted_insertionSort latLe l).sublist (List.take_sublist _ _)

lemma tenCandidates_sorted : List.Sorted latLe tenCandidates := by
  unfold tenCandidates
  simp only [List.sorted_cons, List.mem_cons, List.mem_singleton, List.not_mem_nil,
    List.sorted_nil, latLe]
  norm_num

/-- C2 (counterexample): on 10 candidates with `pct = 25` the filter keeps
`max(1, floor(10·25/100)) = 2` entries, but `ceil(10·25/100) = 3`: the
claimed ceil-count is wrong. -/
theorem c2_counterexample :
    (latencyFilterIps tenCandidates 25).length = 2 ∧
      ((latencyFilterIps tenCandidates 25).length : ℤ) ≠
        ⌈((tenCandidates.length : ℚ)) * 25 / 100⌉ := by
  have hsort : List.insertionSort latLe tenCandidates = tenCandidates :=
    List.Sorted.insertionSort_eq tenCandidates_sorted
  have hlen : (latencyFilterIps tenCandidates 25).length = 2 := by
    unfold latencyFilterIps
    rw [show tenCandidates.isEmpty = false from rfl]
    simp only [Bool.false_eq_true, if_false, hsort]
    rw [show (tenCandidates.length : ℚ) = 10 from by norm_num [tenCandidates]]
    rw [show ⌊(10 : ℚ) * 25 / 100⌋ = 2 from by norm_num]
    rfl
  refine ⟨hlen, ?_⟩
  rw [hlen]
  rw [show ((tenCandidates.length : ℚ)) = 10 from by norm_num [tenCandidates]]
  rw [show ⌈(10 : ℚ) * 25 / 100⌉ = 3 from by rw [Int.ceil_eq_iff]; norm_num]
  norm_num

/-- C2 (witness): a two-candidate instance of the amended percentile-filter
theorem, `pct = 30`: `max(1, floor(2·30/100)) = 1` entry kept. -/
theorem c2_witness :
    ([⟨"a", 1, 1, 0⟩, ⟨"b", 2, 2, 0⟩] : List IpLatency) ≠ [] ∧
      (latencyFilterIps [⟨"a", 1, 1, 0⟩, ⟨"b", 2, 2, 0⟩] 30).length =
        min (max 1 (⌊((([⟨"a", 1, 1, 0⟩, ⟨"b", 2, 2, 0⟩] : List IpLatency).length : ℚ)) *
          30 / 100⌋.toNat)) ([⟨"a", 1, 1, 0⟩, ⟨"b", 2, 2, 0⟩] : List IpLatency).length :=
  ⟨by simp,
    (c2_floor_percentile [⟨"a", 1, 1, 0⟩, ⟨"b", 2, 2, 0⟩] 30 (by simp)).1⟩

/-- C9: with the 24-hour TTL, a cached timestamp is valid iff it is strictly
less than 24 hours (86,400,000 ms) old; at an age of exactly 24 hours it is
invalid. -/
theorem c9_isCacheValid_boundary :
    (∀ ts nowMs : ℤ, isCacheValid (some ts) 24 nowMs = true ↔
      nowMs - ts < 86400000) ∧
    (∀ ts nowMs : ℤ, nowMs - ts = 86400000 →
      isCacheValid (some ts) 24 nowMs = false) := by
  have key : ∀ ts nowMs : ℤ, isCacheValid (some ts) 24 nowMs = true ↔
      nowMs - ts < 86400000 := by
    intro ts nowMs
    unfold isCacheValid
    rw [decide_eq_true_eq]
    rw [div_lt_iff₀ (by norm_num : (0 : ℚ) < 1000 * 60 * 60)]
    rw [show (24 : ℚ) * (1000 * 60 * 60) = ((86400000 : ℤ) : ℚ) from by norm_num]
    exact Int.cast_lt
  refine ⟨key, ?_⟩
  intro ts nowMs h
  cases hb : isCacheValid (some ts) 24 nowMs with
  | false => rfl
  | true =>
    have := (key ts nowMs).mp hb
    omega

/-- C9 (witness): at exactly 24 hours the cache entry is invalid; one
millisecond earlier it is valid. -/
theorem c9_witness :
    isCacheValid (some 0) 24 86400000 = false ∧
      isCacheValid (some 0) 24 86399999 = true :=
  ⟨c9_isCacheValid_boundary.2 0 86400000 (by norm_num),
    (c9_isCacheValid_boundary.1 0 86399999).mpr (by norm_num)⟩

lemma find?_map_replace (c : GeoCache) (ip : String) (e : CacheEntry) :
    ((c.map (fun x => if x.1 = ip then (ip, e) else x)).find?
        (fun x => decide (x.1 = ip))) =
      if (c.find? (fun x => decide (x.1 = ip))).isSome then some (ip, e)
      else none := by
  induction c with
  | nil => simp
  | cons a t ih =>
    by_cases ha : a.1 = ip
    · simp [List.find?_cons, ha]
    · simp only [List.map_cons, if_neg ha]
      rw [List.find?_cons_of_neg _ (by simpa using ha),
        List.find?_cons_of_neg _ (by simpa using ha)]
      exact ih

lemma find?_append_key (c : GeoCache) (ip : String) (e : CacheEntry)
    (h : c.find? (fun x => decide (x.1 = ip)) = none) :
    (c ++ [(ip, e)]).find? (fun x => decide (x.1 = ip)) = some (ip, e) := by
  induction c with
  | nil => simp
  | cons a t ih =>
    have hna : ¬((fun x : String × CacheEntry => decide (x.1 = ip)) a = true) := by
      intro hd
      rw [@List.find?_cons_of_pos _ (fun x => decide (x.1 = ip)) a t hd] at h
      cases h
    rw [@List.find?_cons_of_neg _ (fun x => decide (x.1 = ip)) a t hna] at h
    rw [List.cons_append,
      @List.find?_cons_of_neg _ (fun x => decide (x.1 = ip)) a (t ++ [(ip, e)]) hna]
    exact ih h

/-- Reading back the key just written. -/
lemma cacheLookup_cacheInsert (c : GeoCache) (ip : String) (e : CacheEntry) :
    cacheLookup (cacheInsert c ip e) ip = some e := by
  unfold cacheLookup cacheInsert
  by_cases h : (c.find? (fun x => decide (x.1 = ip))).isSome
  · rw [if_pos h, find?_map_replace, if_pos h]
    rfl
  · rw [if_neg h, find?_append_key c ip e (Option.not_isSome_iff_eq_none.mp h)]
    rfl

/-- C5: when the cache does not short-circuit for `ip` (here: a cache miss)
and both geolocation providers fail, `getIpRegion` stores a
`{region: "Unknown", timestamp: now}` entry and returns "Unknown"; and any
later lookup of the same address whose cached timestamp is still within the
TTL returns "Unknown" with the cache unchanged and without any network
call — the result is independent of the later environment. -/
theorem c5_unknown_sentinel_cached (cache : GeoCache) (ip : String) (ttl : ℚ)
    (nowMs : ℤ) (env : GeoEnv) (hmiss : cacheLookup cache ip = none)
    (hp : env.primary = none) (hs : env.secondary = none) :
    getIpRegion cache ip ttl nowMs env =
        ("Unknown", cacheInsert cache ip (.timed "Unknown" nowMs)) ∧
      ∀ (nowMs2 : ℤ) (env2 : GeoEnv),
        isCacheValid (some nowMs) ttl nowMs2 = true →
          getIpRegion (cacheInsert cache ip (.timed "Unknown" nowMs)) ip ttl
              nowMs2 env2 =
            ("Unknown", cacheInsert cache ip (.timed "Unknown" nowMs)) := by
  constructor
  · unfold getIpRegion
    rw [hmiss]
    unfold queryApis
    rw [hp, hs]
    rfl
  · intro nowMs2 env2 hvalid
    unfold getIpRegion
    rw [cacheLookup_cacheInsert]
    simp [hvalid]

/-- C5 (witness): empty cache, both providers failing, at `now = 0`; the
second lookup happens 1000 ms later with a provider that would answer "FR" —
it is not consulted. -/
theorem c5_witness :
    cacheLookup [] "1.2.3.4" = none ∧
      getIpRegion (cacheInsert [] "1.2.3.4" (.timed "Unknown" 0)) "1.2.3.4" 168 1000
          ⟨some "FR", none⟩ =
        ("Unknown", cacheInsert [] "1.2.3.4" (.timed "Unknown" 0)) :=
  ⟨rfl,
    (c5_unknown_sentinel_cached [] "1.2.3.4" 168 0 ⟨none, none⟩ rfl rfl rfl).2 1000
      ⟨some "FR", none⟩ (by norm_num [isCacheValid])⟩

/-- C10: a legacy plain-string cache entry (a country code, hence
non-empty) is returned immediately: no freshness check, no network call, no
cache mutation — for every TTL, every current time, and every provider
environment. -/
theorem c10_legacy_entry (cache : GeoCache) (ip code : String) (ttl : ℚ)
    (nowMs : ℤ) (env : GeoEnv)
    (hleg : cacheLookup cache ip = some (.legacy code)) (hne : code ≠ "") :
    getIpRegion cache ip ttl nowMs env = (code, cache) := by
  unfold getIpRegion
  rw [hleg]
  simp [hne]

/-- C10 (witness): a cache holding the legacy entry `"US"` for an address
returns it unchanged even with a TTL of 0, a far-future clock, and a
provider that would answer differently. -/
theorem c10_witness :
    cacheLookup [("1.2.3.4", CacheEntry.legacy "US")] "1.2.3.4" =
        some (CacheEntry.legacy "US") ∧
      getIpRegion [("1.2.3.4", CacheEntry.legacy "US")] "1.2.3.4" 0 999999999999
          ⟨some "FR", some "DE"⟩ =
        ("US", [("1.2.3.4", CacheEntry.legacy "US")]) :=
  ⟨rfl,
    c10_legacy_entry [("1.2.3.4", CacheEntry.legacy "US")] "1.2.3.4" "US" 0
      999999999999 ⟨some "FR", some "DE"⟩ rfl (by decide)⟩

lemma bwTrials_mem {testCount : ℕ} {t : ℕ × ℕ} (ht : t ∈ bwTrials testCount) :
    t.1 < testCount ∧ t.2 < 2 := by
  rcases List.mem_flatMap.mp ht with ⟨a, ha, hmem⟩
  have ha2 := List.mem_range.mp ha
  rcases List.mem_cons.mp hmem with h1 | h1
  · subst h1
    exact ⟨ha2, by omega⟩
  · rcases List.mem_singleton.mp h1 with h2
    subst h2
    exact ⟨ha2, by omega⟩

/-- If every trial yields no positive measurement, the loop falls through
with best speed and latency both zero. -/
lemma bwLoop_no_measurement (env : ℕ → ℕ → DlOutcome) (l : List (ℕ × ℕ))
    (h : ∀ t ∈ l, noBytes (env t.1 t.2)) : bwLoop env l 0 0 = Sum.inl (0, 0) := by
  induction l with
  | nil => rfl
  | cons t rest ih =>
    have ht := h t (List.mem_cons_self t rest)
    have hrest := ih (fun u hu => h u (List.mem_cons_of_mem t hu))
    simp only [bwLoop]
    cases he : env t.1 t.2 with
    | err => exact hrest
    | notOk => exact hrest
    | ok bytes timeMs latMs =>
      rw [he] at ht
      simp only [noBytes] at ht
      have hcond : ¬(0 < ((timeMs : ℚ) / 1000) ∧ 0 < bytes) := by
        rintro ⟨h1, h2⟩
        rcases ht with h0 | h0
        · omega
        · rw [h0] at h1
          norm_num at h1
      simp only [if_neg hcond]
      exact hrest

/-- C3 (amended): a bandwidth probe on a valid address all of whose download
trials yield no positive measurement (in particular: 0 bytes downloaded
before the time cap) keeps `bestSpeed = 0` and falls back to a
single-attempt reachability probe; if that probe reports the address
available, the result is `fast = TRUE` with `bandwidth = 0` and the probe's
`minDelay` as the latency — not `fast = false` as claimed; if the probe also
fails, the result is not-fast with zero throughput and zero latency. -/
theorem c3_zero_byte_fallback (ip : String) (testCount : ℕ)
    (env : ℕ → ℕ → DlOutcome) (fconn : ℕ → ℤ → Option ℕ)
    (hip : isValidIp ip = true)
    (h : ∀ a u, a < testCount → u < 2 → noBytes (env a u)) :
    testIpBandwidth ip testCount env fconn =
      (if (testIpAvailability ip [443] 1 fconn).isAvailable then
        ⟨true, 0, (testIpAvailability ip [443] 1 fconn).minDelay⟩
      else ⟨false, 0, 0⟩) := by
  have hloop := bwLoop_no_measurement env (bwTrials testCount)
    (fun t ht => h t.1 t.2 (bwTrials_mem ht).1 (bwTrials_mem ht).2)
  unfold testIpBandwidth
  rw [hip, hloop]
  norm_num

/-- The fallback reachability probe on `fbConn`: one attempt, fast at 50 ms
(the sample is pushed twice; min = avg = 50, variance 0). -/
lemma fbConn_eval : testIpAvailability "1.2.3.4" [443] 1 fbConn =
    ⟨true, 50, 50, 0⟩ := by
  have hval : isValidIp "1.2.3.4" = true := by decide
  have hrun : runAux fbConn [443] (List.range 1) = ([50, 50], 1) := by decide
  have hfil : List.filter (fun d => decide (d < 999)) [50, 50] = [50, 50] := by decide
  have hmin : natListMin [50, 50] = 50 := by decide
  simp only [testIpAvailability, hval, hrun, hfil, hmin]
  norm_num [AvailResult.mk.injEq, meanQ, varQ, round2]

/-- C3 (counterexample): with every trial downloading 0 bytes before the
time cap and a fallback probe that connects at 50 ms, `testIpBandwidth`
returns `isFast = true` (not the claimed `fast = false`) with bandwidth 0
and the fallback latency 50. -/
theorem c3_counterexample :
    (testIpBandwidth "1.2.3.4" 3 zeroByteEnv fbConn).isFast = true ∧
      (testIpBandwidth "1.2.3.4" 3 zeroByteEnv fbConn).bandwidth = 0 ∧
      (testIpBandwidth "1.2.3.4" 3 zeroByteEnv fbConn).latency = 50 := by
  have hloop := bwLoop_no_measurement zeroByteEnv (bwTrials 3)
    (fun t _ => Or.inl rfl)
  unfold testIpBandwidth
  rw [show isValidIp "1.2.3.4" = true from by decide, hloop, fbConn_eval]
  norm_num

/-- C3 (witness): the amended theorem applied to the zero-byte environment;
with a fallback probe that never connects, the result degrades to
`⟨false, 0, 0⟩`. -/
theorem c3_witness :
    isValidIp "1.2.3.4" = true ∧
      testIpBandwidth "1.2.3.4" 3 zeroByteEnv (fun _ _ => none) =
        (if (testIpAvailability "1.2.3.4" [443] 1 (fun _ _ => none)).isAvailable then
          ⟨true, 0, (testIpAvailability "1.2.3.4" [443] 1 (fun _ _ => none)).minDelay⟩
        else ⟨false, 0, 0⟩) :=
  ⟨by decide,
    c3_zero_byte_fallback "1.2.3.4" 3 zeroByteEnv (fun _ _ => none) (by decide)
      (fun _ _ _ _ => Or.inl rfl)⟩

/-- A cache with no expired entry passes the expiry phase unchanged. -/
lemma expiryPass_fresh {K : Type} [DecidableEq K] {cache : KeyedCache K}
    {ttlHours : ℚ} {nowMs : ℤ}
    (hfresh : ∀ e ∈ cache, isExpiredEntry nowMs ttlHours e.2 = false) :
    expiryPass cache ttlHours nowMs = cache := by
  unfold expiryPass
  have hexp : cache.filter (fun x => isExpiredEntry nowMs ttlHours x.2) = [] := by
    rw [List.filter_eq_nil_iff]
    intro e he
    rw [hfresh e he]
    simp
  rw [hexp, List.map_nil, List.filter_eq_self]
  intro e he
  simp

/-- In a list sorted by a key with pairwise-distinct keys, being among the
first `n` entries is exactly having fewer than `n` entries with a strictly
smaller key. -/
lemma sorted_take_mem_iff {α KT : Type} [LinearOrder KT] (key : α → KT) :
    ∀ (S : List α), List.Sorted (fun a b => key a ≤ key b) S →
      List.Pairwise (fun a b => key a ≠ key b) S →
      ∀ (n : ℕ) (e : α), e ∈ S →
        (e ∈ S.take n ↔
          (S.filter (fun x => decide (key x < key e))).length < n) := by
  intro S
  induction S with
  | nil =>
    intro _ _ n e he
    cases he
  | cons a t ih =>
    intro hs hd n e he
    have hs' : List.Sorted (fun a b => key a ≤ key b) t := hs.of_cons
    have hd' : List.Pairwise (fun a b => key a ≠ key b) t := hd.of_cons
    have hat : ∀ x ∈ t, key a < key x := by
      intro x hx
      exact lt_of_le_of_ne ((List.sorted_cons.mp hs).1 x hx)
        ((List.pairwise_cons.mp hd).1 x hx)
    rcases List.mem_cons.mp he with h1 | h1
    · subst h1
      have hft : List.filter (fun x => decide (key x < key e)) t = [] := by
        rw [List.filter_eq_nil_iff]
        intro x hx
        simp only [decide_eq_true_eq]
        exact not_lt.mpr (le_of_lt (hat x hx))
      cases n with
      | zero => simp
      | succ m =>
        rw [List.take_succ_cons]
        simp [List.filter_cons, hft]
    · have hkey : key a < key e := hat e h1
      have hne : e ≠ a := by
        intro h
        rw [h] at hkey
        exact lt_irrefl _ hkey
      cases n with
      | zero => simp
      | succ m =>
        have hfe2 : decide (key a < key e) = true := by simpa using hkey
        rw [List.take_succ_cons, List.mem_cons]
        simp only [List.filter_cons, hfe2, if_true, eq_self_iff_true, List.length_cons]
        constructor
        · rintro (h2 | h2)
          · exact absurd h2 hne
          · exact Nat.succ_lt_succ ((ih hs' hd' m e h1).mp h2)
        · intro h2
          exact Or.inr ((ih hs' hd' m e h1).mpr (Nat.lt_of_succ_lt_succ h2))

/-- With pairwise-distinct keys, two entries sharing a key are equal. -/
lemma eq_of_fst_eq {K : Type} {l : KeyedCache K}
    (hnd : (l.map Prod.fst).Nodup) {e f : K × CacheEntry}
    (he : e ∈ l) (hf : f ∈ l) (hkey : e.1 = f.1) : e = f := by
  induction l with
  | nil => cases he
  | cons a t ih =>
    rw [List.map_cons, List.nodup_cons] at hnd
    rcases List.mem_cons.mp he with h1 | h1 <;> rcases List.mem_cons.mp hf with h2 | h2
    · rw [h1, h2]
    · exfalso
      apply hnd.1
      rw [← h1, hkey]
      exact List.mem_map_of_mem Prod.fst h2
    · exfalso
      apply hnd.1
      rw [← h2, ← hkey]
      exact List.mem_map_of_mem Prod.fst h1
    · exact ih hnd.2 h1 h2

/-- C6: on a cache of 1200 timestamped, non-expired entries with distinct
timestamps (and unique keys, as in a JS object), the cleanup pass leaves
exactly 1000 entries, and the retained set is exactly the 1000 entries with
the most recent timestamps: an entry survives iff at least 200 entries of
the original cache carry a strictly older timestamp key. -/
theorem c6_capacity_eviction {K : Type} [DecidableEq K] (cache : KeyedCache K)
    (ttl : ℚ) (nowMs : ℤ)
    (hlen : cache.length = 1200)
    (hkeys : (cache.map Prod.fst).Nodup)
    (htimed : ∀ e ∈ cache, ∃ r ts, e.2 = CacheEntry.timed r ts)
    (hfresh : ∀ e ∈ cache, isExpiredEntry nowMs ttl e.2 = false)
    (hdistinct : (cache.map (fun e => entryKey e.2)).Nodup) :
    (cleanExpiredCache cache ttl nowMs).length = 1000 ∧
      ∀ e, e ∈ cleanExpiredCache cache ttl nowMs ↔
        (e ∈ cache ∧
          200 ≤ (cache.filter
            (fun x => decide (entryKey x.2 < entryKey e.2))).length) := by
  classical
  set S := List.insertionSort cleanLe cache with hS
  have hperm : List.Perm S cache := List.perm_insertionSort cleanLe cache
  have hsort : List.Sorted (fun a b : K × CacheEntry =>
      entryKey a.2 ≤ entryKey b.2) S :=
    (List.sorted_insertionSort cleanLe cache).imp (fun h => h)
  have hdcache : List.Pairwise
      (fun a b : K × CacheEntry => entryKey a.2 ≠ entryKey b.2) cache :=
    List.pairwise_map.mp hdistinct
  have hdS : List.Pairwise
      (fun a b : K × CacheEntry => entryKey a.2 ≠ entryKey b.2) S :=
    (hperm.pairwise_iff (fun h => Ne.symm h)).mpr hdcache
  have hcacheNodup : cache.Nodup := List.Nodup.of_map Prod.fst hkeys
  have hSNodup : S.Nodup := hperm.nodup_iff.mpr hcacheNodup
  have hlenS : S.length = 1200 := hperm.length_eq.trans hlen
  have hresult : cleanExpiredCache cache ttl nowMs =
      cache.filter (fun e => decide (e.1 ∉ (S.take 200).map (fun x => x.1))) := by
    unfold cleanExpiredCache
    rw [expiryPass_fresh hfresh]
    unfold capacityPass
    rw [if_pos (show 1000 < cache.length from by rw [hlen]; norm_num)]
    rw [hlen, ← hS]
  -- key membership in the evicted prefix transfers to entry membership
  have hkeymem : ∀ e ∈ cache,
      (e.1 ∈ (S.take 200).map (fun x => x.1) ↔ e ∈ S.take 200) := by
    intro e he
    constructor
    · intro hmem
      rcases List.mem_map.mp hmem with ⟨f, hfA, hf1⟩
      have hfS : f ∈ S := (List.take_sublist 200 S).mem hfA
      have hfc : f ∈ cache := hperm.mem_iff.mp hfS
      have : e = f := eq_of_fst_eq hkeys he hfc hf1.symm
      rw [this]
      exact hfA
    · intro hmem
      exact List.mem_map_of_mem (fun x => x.1) hmem
  -- membership characterization via the sorted-prefix lemma
  have hmemchar : ∀ e ∈ cache,
      (e ∈ S.take 200 ↔
        (S.filter (fun x => decide (entryKey x.2 < entryKey e.2))).length < 200) := by
    intro e he
    exact sorted_take_mem_iff (fun x : K × CacheEntry => entryKey x.2) S hsort hdS
      200 e (hperm.mem_iff.mpr he)
  have hfiltereq : ∀ e : K × CacheEntry,
      (S.filter (fun x => decide (entryKey x.2 < entryKey e.2))).length =
        (cache.filter (fun x => decide (entryKey x.2 < entryKey e.2))).length :=
    fun e => (hperm.filter _).length_eq
  constructor
  · -- length: the filter deletes exactly the 200-entry sorted prefix
    have hfA : List.filter
        (fun e => decide (e.1 ∉ (S.take 200).map (fun x => x.1))) (S.take 200) = [] := by
      rw [List.filter_eq_nil_iff]
      intro e he
      simp only [decide_eq_true_eq, not_not]
      exact List.mem_map_of_mem (fun x => x.1) he
    have hfB : List.filter
        (fun e => decide (e.1 ∉ (S.take 200).map (fun x => x.1))) (S.drop 200) =
        S.drop 200 := by
      rw [List.filter_eq_self]
      intro e he
      simp only [decide_eq_true_eq]
      intro hmem
      have heS : e ∈ S := (List.drop_sublist 200 S).mem he
      have hec : e ∈ cache := hperm.mem_iff.mp heS
      have hetake : e ∈ S.take 200 := (hkeymem e hec).mp hmem
      have hnd2 : (S.take 200 ++ S.drop 200).Nodup := by
        rw [List.take_append_drop]
        exact hSNodup
      exact (List.nodup_append.mp hnd2).2.2 hetake he
    have hsplit : ∀ p : (K × CacheEntry) → Bool,
        List.filter p (S.take 200) = [] → List.filter p (S.drop 200) = S.drop 200 →
          List.filter p S = S.drop 200 := by
      intro p h1 h2
      conv_lhs => rw [← List.take_append_drop 200 S]
      rw [List.filter_append, h1, h2, List.nil_append]
    have hSfilter : List.filter
        (fun e => decide (e.1 ∉ (S.take 200).map (fun x => x.1))) S = S.drop 200 :=
      hsplit _ hfA hfB
    rw [hresult, ← (hperm.filter _).length_eq, hSfilter, List.length_drop, hlenS]
  · intro e
    rw [hresult, List.mem_filter]
    constructor
    · rintro ⟨hec, hp⟩
      refine ⟨hec, ?_⟩
      simp only [decide_eq_true_eq] at hp
      have : e ∉ S.take 200 := fun h => hp ((hkeymem e hec).mpr h)
      have := (hmemchar e hec).not.mp this  -- hmm Iff.not?
      rw [← hfiltereq e]
      omega
    · rintro ⟨hec, hcount⟩
      refine ⟨hec, ?_⟩
      simp only [decide_eq_true_eq]
      intro hmem
      have hetake : e ∈ S.take 200 := (hkeymem e hec).mp hmem
      have := (hmemchar e hec).mp hetake
      rw [hfiltereq e] at this
      omega

set_option maxRecDepth 4000 in
/-- C6 (witness): the capacity-eviction theorem applied to the concrete
1200-entry cache (retention TTL 1 hour, clock at epoch, so nothing is
expired): exactly 1000 entries remain. -/
theorem c6_witness :
    bigCache.length = 1200 ∧ (cleanExpiredCache bigCache 1 0).length = 1000 := by
  have hlen : bigCache.length = 1200 := by simp [bigCache]
  have hkeys : (bigCache.map Prod.fst).Nodup := by
    simpa [bigCache, List.map_map, Function.comp] using List.nodup_range 1200
  have htimed : ∀ e ∈ bigCache, ∃ r ts, e.2 = CacheEntry.timed r ts := by
    intro e he
    simp only [bigCache, List.mem_map] at he
    obtain ⟨i, _, rfl⟩ := he
    exact ⟨"US", (i : ℤ), rfl⟩
  have hfresh : ∀ e ∈ bigCache, isExpiredEntry 0 1 e.2 = false := by
    intro e he
    simp only [bigCache, List.mem_map] at he
    obtain ⟨i, _, rfl⟩ := he
    show isExpiredEntry 0 1 (CacheEntry.timed "US" (i : ℤ)) = false
    unfold isExpiredEntry
    rw [decide_eq_false_iff_not]
    rw [le_div_iff₀ (by norm_num : (0 : ℚ) < 1000 * 60 * 60)]
    push_cast
    intro hc
    have h0 : (0 : ℚ) ≤ (i : ℚ) := by positivity
    linarith
  have hdistinct : (bigCache.map (fun e => entryKey e.2)).Nodup := by
    have hinj : Function.Injective (fun i : ℕ => (((i : ℤ) : WithBot ℤ))) := by
      intro a b h
      simp only at h
      exact_mod_cast h
    simpa [bigCache, List.map_map, Function.comp, entryKey] using
      List.Nodup.map hinj (List.nodup_range 1200)
  exact ⟨hlen,
    (c6_capacity_eviction bigCache 1 0 hlen hkeys htimed hfresh hdistinct).1⟩

end SenflareDnsIp
